import Mathlib

/-!
Verification of the velocity-profile helper of the 0D variable-volume
reactor notebook.  The class VolumeProfile stores time samples, volume
samples normalized by the first volume value, and a velocity array of
forward differences with a trailing zero; calling the profile performs a
piecewise-constant (step-function) lookup.  Samples are modelled as lists
of rationals, numpy arrays of floats in the source.
-/

/-- Forward differences, the translation of numpy.diff: the output has one
element fewer than the input and entry i equals xs[i+1] - xs[i]. -/
def npDiff (xs : List ℚ) : List ℚ :=
  List.zipWith (fun a b => b - a) xs xs.tail

/-- The data stored by a VolumeProfile object: the attributes time, volume
and velocity set in __init__. -/
structure VolumeProfile where
  time : List ℚ
  volume : List ℚ
  velocity : List ℚ

/-- Translation of VolumeProfile.__init__: store the time samples, the
volume samples divided by the first input volume value, and the velocity
array diff(volume)/diff(time) with a zero appended. -/
def VolumeProfile.init (time volume : List ℚ) : VolumeProfile :=
  { time := time
    volume := volume.map (fun x => x / volume.headD 0)
    velocity :=
      (List.zipWith (fun a b => a / b)
        (npDiff (volume.map (fun x => x / volume.headD 0))) (npDiff time)) ++ [0] }

/-- Translation of VolumeProfile.__call__: if time[0] <= t <= time[-1],
take the last element of the time array that is <= t, find the first index
where the time array equals that value, and return the velocity at that
index; otherwise return 0. -/
def VolumeProfile.call (p : VolumeProfile) (t : ℚ) : ℚ :=
  if t ≤ p.time.getLastD 0 ∧ p.time.headD 0 ≤ t then
    let prev_time_point := (p.time.filter (fun x => decide (x ≤ t))).getLastD 0
    let index := p.time.findIdx (fun x => decide (x = prev_time_point))
    p.velocity.getD index 0
  else 0

/-- One invocation of the profile in state-passing form: the body of
__call__ only reads the stored arrays, so the state after the call is the
state before it. -/
def VolumeProfile.callM (p : VolumeProfile) (t : ℚ) : ℚ × VolumeProfile :=
  (p.call t, p)

/-- A sequence of invocations of the profile at the query times ts,
threading the profile state through every call and collecting the returned
velocities. -/
def runCalls (p : VolumeProfile) (ts : List ℚ) : List ℚ × VolumeProfile :=
  match ts with
  | [] => ([], p)
  | t :: rest =>
    let r := p.callM t
    let rr := runCalls r.2 rest
    (r.1 :: rr.1, rr.2)

/-- The divisors used by VolumeProfile.__init__: the first input volume
value (normalization of every volume entry) and the consecutive time
deltas (velocity computation). -/
def initDivisors (time volume : List ℚ) : List ℚ :=
  volume.headD 0 :: npDiff time

/- Basic helper lemmas about list access. -/

lemma getD_of_lt (l : List ℚ) (i : ℕ) (h : i < l.length) :
    l.getD i 0 = l[i] := by
  simp [List.getD_eq_getElem?_getD, List.getElem?_eq_getElem h]

lemma getLastD_eq_getD (l : List ℚ) :
    ∀ d : ℚ, l ≠ [] → l.getLastD d = l.getD (l.length - 1) 0 := by
  induction l with
  | nil => intro d h; simp at h
  | cons a l ih =>
    intro d _
    cases l with
    | nil => simp [List.getLastD_cons]
    | cons b l' =>
      rw [List.getLastD_cons, ih a (by simp)]
      simp

/- Lemmas about filtering and taking from a sorted time array. -/

lemma filter_le_eq_takeWhile (t : ℚ) :
    ∀ l : List ℚ, l.Sorted (· ≤ ·) →
      l.filter (fun x => decide (x ≤ t)) = l.takeWhile (fun x => decide (x ≤ t)) := by
  intro l
  induction l with
  | nil => intro _; rfl
  | cons a l ih =>
    intro hs
    rcases List.sorted_cons.mp hs with ⟨ha, hl⟩
    by_cases hat : a ≤ t
    · rw [List.filter_cons_of_pos (by simpa using hat),
        List.takeWhile_cons_of_pos (by simpa using hat), ih hl]
    · rw [List.filter_cons_of_neg (by simpa using hat),
        List.takeWhile_cons_of_neg (by simpa using hat)]
      refine List.filter_eq_nil_iff.mpr ?_
      intro b hb
      have : a ≤ b := ha b hb
      simp only [decide_eq_true_eq]
      intro hbt
      exact hat (le_trans this hbt)

lemma takeWhile_length_le (p : ℚ → Bool) (l : List ℚ) :
    (l.takeWhile p).length ≤ l.length :=
  (List.takeWhile_sublist p).length_le

lemma takeWhile_getD (p : ℚ → Bool) :
    ∀ (l : List ℚ) (k : ℕ), k < (l.takeWhile p).length →
      (l.takeWhile p).getD k 0 = l.getD k 0 := by
  intro l
  induction l with
  | nil => intro k hk; simp at hk
  | cons a l ih =>
    intro k hk
    by_cases hpa : p a
    · rw [List.takeWhile_cons_of_pos hpa] at hk ⊢
      cases k with
      | zero => simp
      | succ k =>
        simp only [List.getD_cons_succ]
        exact ih k (by simpa using hk)
    · rw [List.takeWhile_cons_of_neg hpa] at hk
      simp at hk

lemma takeWhile_getD_sat (p : ℚ → Bool) (l : List ℚ) (k : ℕ)
    (hk : k < (l.takeWhile p).length) : p (l.getD k 0) = true := by
  rw [← takeWhile_getD p l k hk]
  rw [getD_of_lt _ _ hk]
  exact List.mem_takeWhile_imp (List.getElem_mem hk)

lemma takeWhile_stop (p : ℚ → Bool) :
    ∀ l : List ℚ, (l.takeWhile p).length < l.length →
      p (l.getD (l.takeWhile p).length 0) = false := by
  intro l
  induction l with
  | nil => intro h; simp at h
  | cons a l ih =>
    intro h
    by_cases hpa : p a
    · rw [List.takeWhile_cons_of_pos hpa] at h ⊢
      simp only [List.length_cons, List.getD_cons_succ]
      exact ih (by simpa using h)
    · rw [List.takeWhile_cons_of_neg hpa]
      simpa using hpa

lemma sorted_getD_mono (l : List ℚ) (hs : l.Sorted (· ≤ ·)) (i j : ℕ)
    (hij : i ≤ j) (hj : j < l.length) : l.getD i 0 ≤ l.getD j 0 := by
  rcases eq_or_lt_of_le hij with rfl | hlt
  · exact le_refl _
  · rw [getD_of_lt _ _ (lt_trans hlt hj), getD_of_lt _ _ hj]
    exact List.pairwise_iff_getElem.mp hs i j (lt_trans hlt hj) hj hlt

lemma sorted_getD_strict (l : List ℚ) (hs : l.Sorted (· < ·)) (i j : ℕ)
    (hij : i < j) (hj : j < l.length) : l.getD i 0 < l.getD j 0 := by
  rw [getD_of_lt _ _ (lt_trans hij hj), getD_of_lt _ _ hj]
  exact List.pairwise_iff_getElem.mp hs i j (lt_trans hij hj) hj hij

lemma sorted_lt_le (l : List ℚ) (hs : l.Sorted (· < ·)) : l.Sorted (· ≤ ·) :=
  List.Pairwise.imp le_of_lt hs

lemma le_t_iff_lt_m (time : List ℚ) (t : ℚ) (hs : time.Sorted (· ≤ ·))
    (k : ℕ) (hk : k < time.length) :
    time.getD k 0 ≤ t ↔
      k < (time.takeWhile (fun x => decide (x ≤ t))).length := by
  constructor
  · intro hle
    by_contra hnot
    push_neg at hnot
    have hmlt : (time.takeWhile (fun x => decide (x ≤ t))).length < time.length :=
      lt_of_le_of_lt hnot hk
    have hstop := takeWhile_stop (fun x => decide (x ≤ t)) time hmlt
    have hmono := sorted_getD_mono time hs _ k hnot hk
    simp only [decide_eq_false_iff_not, not_le] at hstop
    exact absurd (le_trans hmono hle) (not_le.mpr hstop)
  · intro hlt
    have := takeWhile_getD_sat (fun x => decide (x ≤ t)) time k hlt
    simpa using this

lemma headD_eq_getD (l : List ℚ) (h : l ≠ []) : l.headD 0 = l.getD 0 0 := by
  cases l with
  | nil => exact absurd rfl h
  | cons a l => rfl

lemma init_time (time volume : List ℚ) :
    (VolumeProfile.init time volume).time = time := rfl

lemma m_pos (time : List ℚ) (t : ℚ) (hne : time ≠ []) (h1 : time.headD 0 ≤ t) :
    0 < (time.takeWhile (fun x => decide (x ≤ t))).length := by
  by_contra hnot
  push_neg at hnot
  have hm0 : (time.takeWhile (fun x => decide (x ≤ t))).length = 0 :=
    Nat.le_zero.mp hnot
  have hlen : 0 < time.length := List.length_pos.mpr hne
  have hstop := takeWhile_stop (fun x => decide (x ≤ t)) time (by omega)
  rw [hm0] at hstop
  rw [headD_eq_getD time hne] at h1
  simp only [decide_eq_false_iff_not] at hstop
  exact hstop h1

lemma prev_eq (time : List ℚ) (t : ℚ) (hs : time.Sorted (· ≤ ·)) (hne : time ≠ [])
    (h1 : time.headD 0 ≤ t) :
    (time.filter (fun x => decide (x ≤ t))).getLastD 0
      = time.getD ((time.takeWhile (fun x => decide (x ≤ t))).length - 1) 0 := by
  rw [filter_le_eq_takeWhile t time hs]
  have hm := m_pos time t hne h1
  have hTne : time.takeWhile (fun x => decide (x ≤ t)) ≠ [] := by
    intro hT
    rw [hT] at hm
    simp at hm
  rw [getLastD_eq_getD _ 0 hTne]
  exact takeWhile_getD _ time _ (by omega)

lemma call_core (time volume : List ℚ) (t : ℚ)
    (hs : time.Sorted (· ≤ ·)) (hne : time ≠ [])
    (h1 : time.headD 0 ≤ t) (h2 : t ≤ time.getLastD 0) :
    ∃ j : ℕ, j < time.length ∧
      j < (time.takeWhile (fun x => decide (x ≤ t))).length ∧
      time.getD j 0
        = time.getD ((time.takeWhile (fun x => decide (x ≤ t))).length - 1) 0 ∧
      time.getD j 0 ≤ t ∧
      (∀ k, k < time.length → time.getD k 0 ≤ t → time.getD k 0 ≤ time.getD j 0) ∧
      (∀ k, k < j → time.getD k 0 ≠ time.getD j 0) ∧
      (VolumeProfile.init time volume).call t
        = (VolumeProfile.init time volume).velocity.getD j 0 := by
  have hm := m_pos time t hne h1
  have hm_le := takeWhile_length_le (fun x => decide (x ≤ t)) time
  have hm1_lt : (time.takeWhile (fun x => decide (x ≤ t))).length - 1 < time.length := by
    omega
  have hv_mem :
      time.getD ((time.takeWhile (fun x => decide (x ≤ t))).length - 1) 0 ∈ time := by
    rw [getD_of_lt _ _ hm1_lt]
    exact List.getElem_mem hm1_lt
  have hex : ∃ x ∈ time,
      (fun x => decide
        (x = time.getD ((time.takeWhile (fun x => decide (x ≤ t))).length - 1) 0)) x
        = true :=
    ⟨_, hv_mem, by simp⟩
  have hj_lt_n := List.findIdx_lt_length_of_exists hex
  have hj_val :
      time.getD (time.findIdx (fun x => decide
          (x = time.getD ((time.takeWhile (fun x => decide (x ≤ t))).length - 1) 0))) 0
        = time.getD ((time.takeWhile (fun x => decide (x ≤ t))).length - 1) 0 := by
    have := List.findIdx_getElem (w := hj_lt_n)
    simp only [decide_eq_true_eq] at this
    rw [getD_of_lt _ _ hj_lt_n]
    exact this
  have hv_le : time.getD ((time.takeWhile (fun x => decide (x ≤ t))).length - 1) 0 ≤ t :=
    (le_t_iff_lt_m time t hs _ hm1_lt).mpr (by omega)
  have hj_lt_m := (le_t_iff_lt_m time t hs _ hj_lt_n).mp (by rw [hj_val]; exact hv_le)
  refine ⟨time.findIdx (fun x => decide
      (x = time.getD ((time.takeWhile (fun x => decide (x ≤ t))).length - 1) 0)),
    hj_lt_n, hj_lt_m, hj_val, by rw [hj_val]; exact hv_le, ?_, ?_, ?_⟩
  · intro k hk hkt
    have hk_lt_m := (le_t_iff_lt_m time t hs k hk).mp hkt
    rw [hj_val]
    exact sorted_getD_mono time hs k _ (by omega) hm1_lt
  · intro k hk
    have hnot := List.not_of_lt_findIdx hk
    simp only [decide_eq_false_iff_not] at hnot
    rw [getD_of_lt _ _ (lt_trans hk hj_lt_n)]
    rw [hj_val]
    exact hnot
  · rw [VolumeProfile.call]
    simp only [init_time]
    rw [if_pos ⟨h2, h1⟩]
    simp only [prev_eq time t hs hne h1]

lemma call_eq_of_maximizer (time volume : List ℚ) (t : ℚ)
    (hs : time.Sorted (· < ·)) (hne : time ≠ [])
    (h1 : time.headD 0 ≤ t) (h2 : t ≤ time.getLastD 0)
    (j : ℕ) (hj : j < time.length) (hjle : time.getD j 0 ≤ t)
    (hmax : ∀ k, k < time.length → time.getD k 0 ≤ t → time.getD k 0 ≤ time.getD j 0) :
    (VolumeProfile.init time volume).call t
      = (VolumeProfile.init time volume).velocity.getD j 0 := by
  have hsle := sorted_lt_le time hs
  obtain ⟨j', hj'n, hj'm, hj'val, hj'le, hmax', hne', hcall⟩ :=
    call_core time volume t hsle hne h1 h2
  have hm := m_pos time t hne h1
  have hm_le := takeWhile_length_le (fun x => decide (x ≤ t)) time
  have hm1_lt :
      (time.takeWhile (fun x => decide (x ≤ t))).length - 1 < time.length := by omega
  have hj_lt_m := (le_t_iff_lt_m time t hsle j hj).mp hjle
  have hj'_eq : j' = (time.takeWhile (fun x => decide (x ≤ t))).length - 1 := by
    by_contra hne2
    have hlt : j' < (time.takeWhile (fun x => decide (x ≤ t))).length - 1 := by omega
    have hstrict := sorted_getD_strict time hs _ _ hlt hm1_lt
    rw [hj'val] at hstrict
    exact lt_irrefl _ hstrict
  have hj_eq : j = (time.takeWhile (fun x => decide (x ≤ t))).length - 1 := by
    by_contra hne2
    have hlt : j < (time.takeWhile (fun x => decide (x ≤ t))).length - 1 := by omega
    have hstrict := sorted_getD_strict time hs _ _ hlt hm1_lt
    have hle2 :
        time.getD ((time.takeWhile (fun x => decide (x ≤ t))).length - 1) 0 ≤ t :=
      (le_t_iff_lt_m time t hsle _ hm1_lt).mpr (by omega)
    have := hmax _ hm1_lt hle2
    exact absurd hstrict (not_lt.mpr this)
  rw [hj_eq, ← hj'_eq]
  exact hcall

/- Lemmas about the velocity array built in __init__. -/

lemma npDiff_length (xs : List ℚ) : (npDiff xs).length = xs.length - 1 := by
  simp only [npDiff, List.length_zipWith, List.length_tail]
  omega

lemma npDiff_getD (xs : List ℚ) (i : ℕ) (h : i + 1 < xs.length) :
    (npDiff xs).getD i 0 = xs.getD (i + 1) 0 - xs.getD i 0 := by
  have hlen : i < (npDiff xs).length := by
    rw [npDiff_length]
    omega
  rw [getD_of_lt _ _ hlen]
  simp only [npDiff, List.getElem_zipWith, List.getElem_tail]
  rw [getD_of_lt _ _ h, getD_of_lt _ _ (by omega)]

lemma map_div_getD (volume : List ℚ) (k : ℕ) (hk : k < volume.length) :
    (volume.map (fun x => x / volume.headD 0)).getD k 0
      = volume.getD k 0 / volume.headD 0 := by
  rw [getD_of_lt _ _ (by simpa using hk), List.getElem_map, getD_of_lt _ _ hk]

lemma velocity_length (time volume : List ℚ) (hlen : time.length = volume.length)
    (hn : 1 ≤ volume.length) :
    (VolumeProfile.init time volume).velocity.length = volume.length := by
  simp only [VolumeProfile.init, List.length_append, List.length_zipWith,
    npDiff_length, List.length_map, List.length_cons, List.length_nil]
  omega

lemma velocity_getD (time volume : List ℚ) (i : ℕ)
    (hlen : time.length = volume.length) (hi : i + 1 < volume.length) :
    (VolumeProfile.init time volume).velocity.getD i 0
      = (volume.getD (i + 1) 0 / volume.headD 0 - volume.getD i 0 / volume.headD 0)
        / (time.getD (i + 1) 0 - time.getD i 0) := by
  have hzw : (List.zipWith (fun a b => a / b)
      (npDiff (volume.map (fun x => x / volume.headD 0))) (npDiff time)).length
      = volume.length - 1 := by
    simp only [List.length_zipWith, npDiff_length, List.length_map, hlen]
    omega
  have hi' : i < (List.zipWith (fun a b => a / b)
      (npDiff (volume.map (fun x => x / volume.headD 0))) (npDiff time)).length := by
    omega
  have hlen_app : i < ((List.zipWith (fun a b => a / b)
      (npDiff (volume.map (fun x => x / volume.headD 0))) (npDiff time)) ++ [0]).length := by
    simp only [List.length_append, List.length_cons, List.length_nil]
    omega
  have hb1 : i < (npDiff (volume.map (fun x => x / volume.headD 0))).length := by
    rw [npDiff_length, List.length_map]
    omega
  have hb2 : i < (npDiff time).length := by
    rw [npDiff_length]
    omega
  simp only [VolumeProfile.init]
  rw [getD_of_lt _ _ hlen_app, List.getElem_append_left hi', List.getElem_zipWith,
    ← getD_of_lt _ _ hb1, ← getD_of_lt _ _ hb2,
    npDiff_getD _ _ (by simp only [List.length_map]; omega),
    npDiff_getD _ _ (by omega), map_div_getD _ _ (by omega),
    map_div_getD _ _ (by omega)]

lemma call_out_of_range (time volume : List ℚ) (t : ℚ)
    (h : t < time.headD 0 ∨ time.getLastD 0 < t) :
    (VolumeProfile.init time volume).call t = 0 := by
  rw [VolumeProfile.call]
  simp only [init_time]
  rw [if_neg]
  rintro ⟨ha, hb⟩
  rcases h with h | h
  · exact absurd hb (not_le.mpr h)
  · exact absurd ha (not_le.mpr h)

lemma velocity_last_zero (time volume : List ℚ) (hlen : time.length = volume.length)
    (hne : time ≠ []) :
    (VolumeProfile.init time volume).velocity.getD (time.length - 1) 0 = 0 := by
  have hn : 0 < time.length := List.length_pos.mpr hne
  have hzw : (List.zipWith (fun a b => a / b)
      (npDiff (volume.map (fun x => x / volume.headD 0))) (npDiff time)).length
      = time.length - 1 := by
    simp only [List.length_zipWith, npDiff_length, List.length_map, hlen]
    omega
  have happ : time.length - 1 < ((List.zipWith (fun a b => a / b)
      (npDiff (volume.map (fun x => x / volume.headD 0))) (npDiff time)) ++ [0]).length := by
    simp only [List.length_append, List.length_cons, List.length_nil]
    omega
  simp only [VolumeProfile.init]
  rw [getD_of_lt _ _ happ, List.getElem_append_right (by omega)]
  simp [hzw]

lemma npDiff_ne_zero (time : List ℚ) (hs : time.Sorted (· < ·)) :
    ∀ x ∈ npDiff time, x ≠ 0 := by
  intro x hx
  obtain ⟨i, hi, hxi⟩ := List.mem_iff_getElem.mp hx
  have hi' : i + 1 < time.length := by
    have := hi
    rw [npDiff_length] at this
    omega
  have : x = time.getD (i + 1) 0 - time.getD i 0 := by
    rw [← npDiff_getD time i hi', getD_of_lt _ _ hi, hxi]
  rw [this]
  have := sorted_getD_strict time hs i (i + 1) (by omega) hi'
  exact sub_ne_zero_of_ne (ne_of_gt this)

/- Lemmas about sequences of calls in state-passing form. -/

lemma runCalls_state (p : VolumeProfile) : ∀ ts : List ℚ, (runCalls p ts).2 = p := by
  intro ts
  induction ts with
  | nil => rfl
  | cons t rest ih => simpa [runCalls, VolumeProfile.callM] using ih

lemma runCalls_outputs (p : VolumeProfile) :
    ∀ ts : List ℚ, (runCalls p ts).1 = ts.map p.call := by
  intro ts
  induction ts with
  | nil => rfl
  | cons t rest ih => simp [runCalls, VolumeProfile.callM, ih]

lemma getD_append_right' (l1 l2 : List ℚ) (i : ℕ) :
    (l1 ++ l2).getD (l1.length + i) 0 = l2.getD i 0 := by
  induction l1 with
  | nil => simp
  | cons a l ih =>
    simp only [List.cons_append, List.length_cons]
    have : l.length + 1 + i = (l.length + i) + 1 := by omega
    rw [this, List.getD_cons_succ, ih]

lemma getD_map_call (p : VolumeProfile) (ts : List ℚ) (i : ℕ) (hi : i < ts.length) :
    (ts.map p.call).getD i 0 = p.call (ts.getD i 0) := by
  rw [getD_of_lt _ _ (by simpa using hi), List.getElem_map, getD_of_lt _ _ hi]

lemma getD_append_left' (l1 l2 : List ℚ) (i : ℕ) (h : i < l1.length) :
    (l1 ++ l2).getD i 0 = l1.getD i 0 := by
  rw [getD_of_lt _ _ (by simp only [List.length_append]; omega), getD_of_lt _ _ h,
    List.getElem_append_left h]

/- Claim theorems. -/

/-- Claim C1: for a profile built from strictly increasing time samples and an
in-range query time t, calling the profile returns exactly the precomputed
velocity entry at the index carrying the largest sample time not exceeding
t; no interpolation is performed, the lookup is a step function. -/
theorem call_returns_velocity_at_latest_sample (time volume : List ℚ) (t : ℚ)
    (hs : time.Sorted (· < ·)) (hne : time ≠ [])
    (h1 : time.headD 0 ≤ t) (h2 : t ≤ time.getLastD 0)
    (j : ℕ) (hj : j < time.length) (hjle : time.getD j 0 ≤ t)
    (hmax : ∀ k, k < time.length → time.getD k 0 ≤ t → time.getD k 0 ≤ time.getD j 0) :
    (VolumeProfile.init time volume).call t
      = (VolumeProfile.init time volume).velocity.getD j 0 :=
  call_eq_of_maximizer time volume t hs hne h1 h2 j hj hjle hmax

/-- Witness for C1 at time samples 0, 1, 2; volume samples 1, 2, 4; query
time 3/2, whose latest sample index is 1. -/
theorem call_returns_velocity_at_latest_sample_witness :
    (VolumeProfile.init [0, 1, 2] [1, 2, 4]).call (3 / 2)
      = (VolumeProfile.init [0, 1, 2] [1, 2, 4]).velocity.getD 1 0 :=
  call_returns_velocity_at_latest_sample [0, 1, 2] [1, 2, 4] (3 / 2)
    (by decide) (by decide) (by norm_num) (by norm_num [List.getLastD])
    1 (by decide) (by norm_num [List.getD])
    (by
      intro k hk hle
      simp only [List.length_cons, List.length_nil] at hk
      interval_cases k <;> norm_num [List.getD] at hle ⊢)

/-- Claim C2: a query time strictly before the first time sample or strictly
after the last one makes the range test of __call__ fail, so the call
returns 0. -/
theorem call_zero_outside_sample_range (time volume : List ℚ) (t : ℚ)
    (_hne : time ≠ [])
    (h : t < time.headD 0 ∨ time.getLastD 0 < t) :
    (VolumeProfile.init time volume).call t = 0 :=
  call_out_of_range time volume t h

/-- Witness for C2 with time samples 0, 1 queried at -1. -/
theorem call_zero_outside_sample_range_witness :
    (VolumeProfile.init [0, 1] [1, 2]).call (-1) = 0 :=
  call_zero_outside_sample_range [0, 1] [1, 2] (-1) (by decide)
    (Or.inl (by norm_num))

/-- Claim C3: for strictly increasing time samples, querying the profile exactly
at the sample time of index i returns the velocity entry of index i. -/
theorem call_at_sample_time_returns_its_velocity (time volume : List ℚ) (i : ℕ)
    (hs : time.Sorted (· < ·)) (hlen : time.length = volume.length)
    (hi : i < time.length) :
    (VolumeProfile.init time volume).call (time.getD i 0)
      = (VolumeProfile.init time volume).velocity.getD i 0 := by
  have hne : time ≠ [] := by
    intro h
    rw [h] at hi
    simp at hi
  have hsle := sorted_lt_le time hs
  refine call_eq_of_maximizer time volume _ hs hne ?_ ?_ i hi (le_refl _) ?_
  · rw [headD_eq_getD time hne]
    exact sorted_getD_mono time hsle 0 i (Nat.zero_le i) hi
  · rw [getLastD_eq_getD time 0 hne]
    exact sorted_getD_mono time hsle i (time.length - 1) (by omega) (by omega)
  · intro k hk hkle
    exact hkle

/-- Witness for C3 at time samples 0, 1, 2; volume samples 1, 2, 4;
sample index 1. -/
theorem call_at_sample_time_returns_its_velocity_witness :
    (VolumeProfile.init [0, 1, 2] [1, 2, 4]).call (([0, 1, 2] : List ℚ).getD 1 0)
      = (VolumeProfile.init [0, 1, 2] [1, 2, 4]).velocity.getD 1 0 :=
  call_at_sample_time_returns_its_velocity [0, 1, 2] [1, 2, 4] 1
    (by decide) (by decide) (by decide)

/-- Claim C4: for equal-length nonempty time and volume inputs the stored
velocity array, forward differences with one trailing zero appended, has
the same length as the time and volume inputs. -/
theorem velocity_length_eq_sample_length (time volume : List ℚ)
    (hlen : time.length = volume.length) (hn : 1 ≤ volume.length) :
    (VolumeProfile.init time volume).velocity.length = volume.length ∧
    (VolumeProfile.init time volume).velocity.length = time.length := by
  have h := velocity_length time volume hlen hn
  exact ⟨h, by rw [h, hlen]⟩

/-- Witness for C4 with three samples. -/
theorem velocity_length_eq_sample_length_witness :
    (VolumeProfile.init [0, 1, 2] [1, 2, 4]).velocity.length = ([1, 2, 4] : List ℚ).length ∧
    (VolumeProfile.init [0, 1, 2] [1, 2, 4]).velocity.length = ([0, 1, 2] : List ℚ).length :=
  velocity_length_eq_sample_length [0, 1, 2] [1, 2, 4] (by decide) (by decide)

/-- Claim C5: with a nonzero first input volume entry, each stored volume entry
is the input entry divided by the first input entry, the first stored
entry is 1, and every computed velocity entry of index i < n - 1 is the
normalized forward difference of the volume divided by the time delta. -/
theorem volume_normalized_velocity_formula (time volume : List ℚ)
    (hlen : time.length = volume.length) (hv0 : volume.headD 0 ≠ 0) :
    (∀ i, i < volume.length →
      (VolumeProfile.init time volume).volume.getD i 0
        = volume.getD i 0 / volume.headD 0) ∧
    (volume ≠ [] → (VolumeProfile.init time volume).volume.getD 0 0 = 1) ∧
    (∀ i, i + 1 < volume.length →
      (VolumeProfile.init time volume).velocity.getD i 0
        = (volume.getD (i + 1) 0 / volume.headD 0 - volume.getD i 0 / volume.headD 0)
          / (time.getD (i + 1) 0 - time.getD i 0)) := by
  refine ⟨?_, ?_, ?_⟩
  · intro i hi
    simp only [VolumeProfile.init]
    exact map_div_getD volume i hi
  · intro hne
    simp only [VolumeProfile.init]
    rw [map_div_getD volume 0 (List.length_pos.mpr hne)]
    rw [← headD_eq_getD volume hne]
    exact div_self hv0
  · intro i hi
    exact velocity_getD time volume i hlen hi

/-- Witness for C5 with time samples 0, 1, 2 and volume samples 2, 3, 4. -/
theorem volume_normalized_velocity_formula_witness :
    (∀ i, i < ([2, 3, 4] : List ℚ).length →
      (VolumeProfile.init [0, 1, 2] [2, 3, 4]).volume.getD i 0
        = ([2, 3, 4] : List ℚ).getD i 0 / ([2, 3, 4] : List ℚ).headD 0) ∧
    (([2, 3, 4] : List ℚ) ≠ [] →
      (VolumeProfile.init [0, 1, 2] [2, 3, 4]).volume.getD 0 0 = 1) ∧
    (∀ i, i + 1 < ([2, 3, 4] : List ℚ).length →
      (VolumeProfile.init [0, 1, 2] [2, 3, 4]).velocity.getD i 0
        = (([2, 3, 4] : List ℚ).getD (i + 1) 0 / ([2, 3, 4] : List ℚ).headD 0
            - ([2, 3, 4] : List ℚ).getD i 0 / ([2, 3, 4] : List ℚ).headD 0)
          / (([0, 1, 2] : List ℚ).getD (i + 1) 0 - ([0, 1, 2] : List ℚ).getD i 0)) :=
  volume_normalized_velocity_formula [0, 1, 2] [2, 3, 4] (by decide) (by norm_num)

/-- Claim C6 counterexample: the time samples 0, 1, 2 are uniformly spaced with
positive step 1 and the volume samples -1, 0, 1 increase linearly with
positive increment 1, yet the first computed velocity equals -1, which is
not positive: normalization by the negative first volume value flips the
sign, so the claim fails without a positivity assumption on the first
volume entry. -/
theorem linear_volume_velocity_counterexample :
    ([0, 1, 2] : List ℚ).getD 1 0 - ([0, 1, 2] : List ℚ).getD 0 0 = 1 ∧
    ([0, 1, 2] : List ℚ).getD 2 0 - ([0, 1, 2] : List ℚ).getD 1 0 = 1 ∧
    ([-1, 0, 1] : List ℚ).getD 1 0 - ([-1, 0, 1] : List ℚ).getD 0 0 = 1 ∧
    ([-1, 0, 1] : List ℚ).getD 2 0 - ([-1, 0, 1] : List ℚ).getD 1 0 = 1 ∧
    (VolumeProfile.init [0, 1, 2] [-1, 0, 1]).velocity.getD 0 0 = -1 ∧
    ¬ (0 < (VolumeProfile.init [0, 1, 2] [-1, 0, 1]).velocity.getD 0 0) := by
  norm_num [VolumeProfile.init, npDiff, List.getD]

/-- Claim C6 amended: for uniform positive time spacing, linearly increasing
volume with positive increment, and a positive first volume entry, all
computed velocities (the entries of index i with i + 1 < n, before the
appended trailing zero) are equal and positive. -/
theorem linear_volume_velocities_equal_pos (time volume : List ℚ) (d c : ℚ)
    (hlen : time.length = volume.length)
    (hd : ∀ i, i + 1 < time.length → time.getD (i + 1) 0 - time.getD i 0 = d)
    (hdpos : 0 < d)
    (hc : ∀ i, i + 1 < volume.length → volume.getD (i + 1) 0 - volume.getD i 0 = c)
    (hcpos : 0 < c)
    (hv0 : 0 < volume.headD 0) :
    ∀ i j, i + 1 < volume.length → j + 1 < volume.length →
      (VolumeProfile.init time volume).velocity.getD i 0
        = (VolumeProfile.init time volume).velocity.getD j 0 ∧
      0 < (VolumeProfile.init time volume).velocity.getD i 0 := by
  have key : ∀ i, i + 1 < volume.length →
      (VolumeProfile.init time volume).velocity.getD i 0 = c / volume.headD 0 / d := by
    intro i hi
    rw [velocity_getD time volume i hlen hi, div_sub_div_same, hc i hi,
      hd i (by omega)]
  intro i j hi hj
  rw [key i hi, key j hj]
  exact ⟨rfl, div_pos (div_pos hcpos hv0) hdpos⟩

/-- Witness for the amended C6 with time samples 0, 1, 2 and volume
samples 1, 2, 3, spacing 1 and increment 1. -/
theorem linear_volume_velocities_equal_pos_witness :
    (VolumeProfile.init [0, 1, 2] [1, 2, 3]).velocity.getD 0 0
      = (VolumeProfile.init [0, 1, 2] [1, 2, 3]).velocity.getD 1 0 ∧
    0 < (VolumeProfile.init [0, 1, 2] [1, 2, 3]).velocity.getD 0 0 :=
  linear_volume_velocities_equal_pos [0, 1, 2] [1, 2, 3] 1 1
    (by decide)
    (by
      intro i hi
      simp only [List.length_cons, List.length_nil] at hi
      have hi2 : i ≤ 1 := by omega
      interval_cases i <;> norm_num [List.getD])
    (by norm_num)
    (by
      intro i hi
      simp only [List.length_cons, List.length_nil] at hi
      have hi2 : i ≤ 1 := by omega
      interval_cases i <;> norm_num [List.getD])
    (by norm_num) (by norm_num)
    0 1 (by decide) (by decide)

/-- Claim C7: for a non-decreasing time array, possibly with repeated time
values, and an in-range query time t, the call deterministically returns
the velocity entry of an index j that carries the largest sample time not
exceeding t and is the first index carrying that time value, the
equality-search tie-break of the reference behavior. -/
theorem call_deterministic_with_duplicate_times (time volume : List ℚ) (t : ℚ)
    (hs : time.Sorted (· ≤ ·)) (hne : time ≠ [])
    (h1 : time.headD 0 ≤ t) (h2 : t ≤ time.getLastD 0) :
    ∃ j, j < time.length ∧ time.getD j 0 ≤ t ∧
      (∀ k, k < time.length → time.getD k 0 ≤ t → time.getD k 0 ≤ time.getD j 0) ∧
      (∀ k, k < j → time.getD k 0 ≠ time.getD j 0) ∧
      (VolumeProfile.init time volume).call t
        = (VolumeProfile.init time volume).velocity.getD j 0 := by
  obtain ⟨j, hjn, hjm, hjval, hjle, hmax, hne', hcall⟩ :=
    call_core time volume t hs hne h1 h2
  exact ⟨j, hjn, hjle, hmax, hne', hcall⟩

/-- Witness for C7 with the duplicated time sample 1 and query time 3/2. -/
theorem call_deterministic_with_duplicate_times_witness :
    ∃ j, j < ([0, 1, 1, 2] : List ℚ).length ∧ ([0, 1, 1, 2] : List ℚ).getD j 0 ≤ 3 / 2 ∧
      (∀ k, k < ([0, 1, 1, 2] : List ℚ).length → ([0, 1, 1, 2] : List ℚ).getD k 0 ≤ 3 / 2 →
        ([0, 1, 1, 2] : List ℚ).getD k 0 ≤ ([0, 1, 1, 2] : List ℚ).getD j 0) ∧
      (∀ k, k < j → ([0, 1, 1, 2] : List ℚ).getD k 0 ≠ ([0, 1, 1, 2] : List ℚ).getD j 0) ∧
      (VolumeProfile.init [0, 1, 1, 2] [1, 2, 3, 4]).call (3 / 2)
        = (VolumeProfile.init [0, 1, 1, 2] [1, 2, 3, 4]).velocity.getD j 0 :=
  call_deterministic_with_duplicate_times [0, 1, 1, 2] [1, 2, 3, 4] (3 / 2)
    (by decide) (by decide) (by norm_num) (by norm_num [List.getLastD])

/-- Claim C8: calling the profile is pure and deterministic: in a state-passing
model of any sequence of calls, the stored arrays after the run equal the
arrays fixed at construction, and two calls with the same argument t,
separated by arbitrary other calls, both return the value of the pure
lookup at t. -/
theorem call_pure_and_state_preserving (p : VolumeProfile)
    (pre mid post : List ℚ) (t : ℚ) :
    (runCalls p (pre ++ t :: mid ++ t :: post)).2 = p ∧
    (runCalls p (pre ++ t :: mid ++ t :: post)).1.getD pre.length 0 = p.call t ∧
    (runCalls p (pre ++ t :: mid ++ t :: post)).1.getD (pre.length + 1 + mid.length) 0
      = p.call t := by
  refine ⟨runCalls_state p _, ?_, ?_⟩
  · rw [runCalls_outputs]
    rw [getD_map_call p _ _ (by simp only [List.length_append, List.length_cons]; omega)]
    have hfirst : ((pre ++ t :: mid) ++ t :: post).getD pre.length 0 = t := by
      rw [getD_append_left' _ _ _
        (by simp only [List.length_append, List.length_cons]; omega)]
      have h0 := getD_append_right' pre (t :: mid) 0
      simpa using h0
    rw [hfirst]
  · rw [runCalls_outputs]
    rw [getD_map_call p _ _ (by simp only [List.length_append, List.length_cons]; omega)]
    have hXlen : (pre ++ t :: mid).length + 0 = pre.length + 1 + mid.length := by
      simp only [List.length_append, List.length_cons]
      omega
    rw [← hXlen, getD_append_right']
    rfl

/-- Claim C9: with strictly increasing time samples, querying at the last sample
time takes the in-range branch and returns the trailing appended velocity
entry, which is 0; hence the profile returns 0 at every query time at or
after the last sample, not only strictly after it. -/
theorem call_at_or_after_last_sample_zero (time volume : List ℚ)
    (hs : time.Sorted (· < ·)) (hne : time ≠ [])
    (hlen : time.length = volume.length) :
    (VolumeProfile.init time volume).call (time.getLastD 0)
        = (VolumeProfile.init time volume).velocity.getD (time.length - 1) 0 ∧
    (VolumeProfile.init time volume).velocity.getD (time.length - 1) 0 = 0 ∧
    (∀ t : ℚ, time.getLastD 0 ≤ t → (VolumeProfile.init time volume).call t = 0) := by
  have hsle := sorted_lt_le time hs
  have hn : 0 < time.length := List.length_pos.mpr hne
  have hfirst : (VolumeProfile.init time volume).call (time.getLastD 0)
      = (VolumeProfile.init time volume).velocity.getD (time.length - 1) 0 := by
    refine call_eq_of_maximizer time volume _ hs hne ?_ (le_refl _)
      (time.length - 1) (by omega) ?_ ?_
    · rw [headD_eq_getD time hne, getLastD_eq_getD time 0 hne]
      exact sorted_getD_mono time hsle 0 (time.length - 1) (by omega) (by omega)
    · rw [getLastD_eq_getD time 0 hne]
    · intro k hk hkle
      exact sorted_getD_mono time hsle k (time.length - 1) (by omega) (by omega)
  have hzero := velocity_last_zero time volume hlen hne
  refine ⟨hfirst, hzero, ?_⟩
  intro t ht
  rcases lt_or_le (time.getLastD 0) t with h | h
  · exact call_out_of_range time volume t (Or.inr h)
  · have hteq : t = time.getLastD 0 := le_antisymm h ht
    rw [hteq, hfirst, hzero]

/-- Witness for C9 with time samples 0, 1, 2 and volume samples 1, 2, 4. -/
theorem call_at_or_after_last_sample_zero_witness :
    (VolumeProfile.init [0, 1, 2] [1, 2, 4]).call (([0, 1, 2] : List ℚ).getLastD 0)
        = (VolumeProfile.init [0, 1, 2] [1, 2, 4]).velocity.getD
            (([0, 1, 2] : List ℚ).length - 1) 0 ∧
    (VolumeProfile.init [0, 1, 2] [1, 2, 4]).velocity.getD
        (([0, 1, 2] : List ℚ).length - 1) 0 = 0 ∧
    (∀ t : ℚ, ([0, 1, 2] : List ℚ).getLastD 0 ≤ t →
      (VolumeProfile.init [0, 1, 2] [1, 2, 4]).call t = 0) :=
  call_at_or_after_last_sample_zero [0, 1, 2] [1, 2, 4]
    (by decide) (by decide) (by decide)

/-- Claim C10 counterexample: for the strictly increasing time samples 0, 1 and
the volume samples 0, 1, the normalization of __init__ divides by the
first volume value 0, so strict monotonicity of the time samples alone
does not give every division of __init__ a nonzero divisor. -/
theorem init_divisor_zero_counterexample :
    ([0, 1] : List ℚ).Sorted (· < ·) ∧
    ¬ (∀ x ∈ initDivisors [0, 1] [0, 1], x ≠ 0) := by
  constructor
  · decide
  · intro h
    exact h 0 (by simp [initDivisors]) rfl

/-- Claim C10 amended: with strictly increasing time samples and, in addition, a
nonzero first volume entry, every divisor used in __init__ is nonzero; and
for equal-length nonempty inputs and an in-range query time, the last
index into the filtered time array, the equality-search index, and the
velocity index used by __call__ are all in bounds. -/
theorem divisors_nonzero_indices_in_bounds (time volume : List ℚ) (t : ℚ)
    (hs : time.Sorted (· < ·)) (hne : time ≠ [])
    (hlen : time.length = volume.length) (hv0 : volume.headD 0 ≠ 0)
    (h1 : time.headD 0 ≤ t) (_h2 : t ≤ time.getLastD 0) :
    (∀ x ∈ initDivisors time volume, x ≠ 0) ∧
    time.filter (fun x => decide (x ≤ t)) ≠ [] ∧
    time.findIdx (fun x => decide
        (x = (time.filter (fun x => decide (x ≤ t))).getLastD 0)) < time.length ∧
    time.findIdx (fun x => decide
        (x = (time.filter (fun x => decide (x ≤ t))).getLastD 0))
      < (VolumeProfile.init time volume).velocity.length := by
  have hsle := sorted_lt_le time hs
  have hn : 0 < time.length := List.length_pos.mpr hne
  have hm := m_pos time t hne h1
  have hm_le := takeWhile_length_le (fun x => decide (x ≤ t)) time
  have hm1_lt :
      (time.takeWhile (fun x => decide (x ≤ t))).length - 1 < time.length := by omega
  have hfilter : time.filter (fun x => decide (x ≤ t)) ≠ [] := by
    rw [filter_le_eq_takeWhile t time hsle]
    intro hT
    rw [hT] at hm
    simp at hm
  have hv_mem :
      time.getD ((time.takeWhile (fun x => decide (x ≤ t))).length - 1) 0 ∈ time := by
    rw [getD_of_lt _ _ hm1_lt]
    exact List.getElem_mem hm1_lt
  have hidx : time.findIdx (fun x => decide
      (x = (time.filter (fun x => decide (x ≤ t))).getLastD 0)) < time.length := by
    simp only [prev_eq time t hsle hne h1]
    exact List.findIdx_lt_length_of_exists ⟨_, hv_mem, by simp⟩
  refine ⟨?_, hfilter, hidx, ?_⟩
  · intro x hx
    simp only [initDivisors, List.mem_cons] at hx
    rcases hx with rfl | hx'
    · exact hv0
    · exact npDiff_ne_zero time hs x hx'
  · rw [velocity_length time volume hlen (by omega)]
    omega

/-- Witness for the amended C10 with time samples 0, 1, 2, volume samples
1, 2, 4 and query time 3/2. -/
theorem divisors_nonzero_indices_in_bounds_witness :
    (∀ x ∈ initDivisors [0, 1, 2] [1, 2, 4], x ≠ 0) ∧
    ([0, 1, 2] : List ℚ).filter (fun x => decide (x ≤ 3 / 2)) ≠ [] ∧
    ([0, 1, 2] : List ℚ).findIdx (fun x => decide
        (x = (([0, 1, 2] : List ℚ).filter (fun x => decide (x ≤ 3 / 2))).getLastD 0))
      < ([0, 1, 2] : List ℚ).length ∧
    ([0, 1, 2] : List ℚ).findIdx (fun x => decide
        (x = (([0, 1, 2] : List ℚ).filter (fun x => decide (x ≤ 3 / 2))).getLastD 0))
      < (VolumeProfile.init [0, 1, 2] [1, 2, 4]).velocity.length :=
  divisors_nonzero_indices_in_bounds [0, 1, 2] [1, 2, 4] (3 / 2)
    (by decide) (by decide) (by decide) (by norm_num)
    (by norm_num) (by norm_num [List.getLastD])
